import Mathlib

/-!
Formal model of the `strava_run_challenge` leaderboard engine.

The repository has three Streamlit pages, each building ranked leaderboards
from rows of a spreadsheet with columns
{Runner, Team, Distance, Date, Period?, Archive?}:

* `src/app.py` — main page: no archive handling, hardcoded rosters,
  `pd.to_numeric` / `pd.to_datetime` without `errors='coerce'`, no `dropna`.
* `src/pages/current_leaderboard.py` — coercion with `errors='coerce'`,
  archive-flag filtering (keeps non-archived rows), `dropna`, dynamic rosters.
* `src/pages/archive.py` — same loader, but keeps archived rows only.

Cell values are modelled as `Option String` (`none` = missing / NaN).
Distances are exact rationals; `pandas.Series.round(2)` is modelled as
round-half-even to two decimals.  `DataFrame.sort_values` (default quicksort)
is modelled as a stable sort: at the list sizes produced here numpy's
introsort runs its insertion-sort branch, which preserves the order of the
`groupby` output (group keys ascending) among equal sort values.
-/

namespace StravaRun

/-! ### Character/string primitives

Structural models of `str.upper`, `str.strip`, `astype(str)` on NaN,
membership in a string list, and the lexicographic string order that
pandas uses when sorting group keys. -/

/-- ASCII upper-casing of one character (model of Python `str.upper` on the
ASCII data appearing in this spreadsheet). -/
def upperChar (c : Char) : Char :=
  if 97 ≤ c.toNat ∧ c.toNat ≤ 122 then Char.ofNat (c.toNat - 32) else c

/-- Strip leading and trailing whitespace (model of Python `str.strip`). -/
def trimChars (cs : List Char) : List Char :=
  ((cs.dropWhile Char.isWhitespace).reverse.dropWhile Char.isWhitespace).reverse

/-- `.str.upper().str.strip()` as applied to the `Archive` column. -/
def upperTrim (s : String) : String :=
  String.mk (trimChars (s.data.map upperChar))

/-- Boolean membership of a string in a list (model of `Series.isin`). -/
def memStr (x : String) : List String → Bool
  | [] => false
  | y :: l => if x = y then true else memStr x l

/-- Lexicographic comparison of char lists by code point. -/
def lexLtChars : List Char → List Char → Bool
  | [], [] => false
  | [], _ :: _ => true
  | _ :: _, [] => false
  | a :: as, b :: bs =>
    if a.toNat < b.toNat then true
    else if b.toNat < a.toNat then false
    else lexLtChars as bs

/-- Lexicographic order on strings: the order in which pandas `groupby`
emits string group keys. -/
def strLt (s t : String) : Bool := lexLtChars s.data t.data

/-- Lexicographic order on (Runner, Team) pairs: the order in which
`groupby(['Runner', 'Team'])` emits its group keys. -/
def pairLt (a b : String × String) : Bool :=
  strLt a.1 b.1 || (decide (a.1 = b.1) && strLt a.2 b.2)

/-! ### Numeric and date coercion -/

/-- Is `c` an ASCII digit? -/
def isDigitChar (c : Char) : Bool := decide (48 ≤ c.toNat) && decide (c.toNat ≤ 57)

/-- Value of a digit string. -/
def digitsVal (cs : List Char) : ℕ := cs.foldl (fun n c => 10 * n + (c.toNat - 48)) 0

/-- Are all characters digits? -/
def allDigits (cs : List Char) : Bool := cs.all isDigitChar

/-- Split a char list on a separator character. -/
def splitOnChar (c : Char) : List Char → List (List Char)
  | [] => [[]]
  | x :: xs =>
    match splitOnChar c xs with
    | [] => [[]]
    | y :: ys => if x = c then [] :: y :: ys else (x :: y) :: ys

/-- Parse an unsigned decimal numeral (optionally with a fraction part). -/
def parseUnsigned (cs : List Char) : Option ℚ :=
  match splitOnChar '.' cs with
  | [i] => if allDigits i && !i.isEmpty then some ((digitsVal i : ℚ)) else none
  | [i, f] =>
    if allDigits i && allDigits f && !(i.isEmpty && f.isEmpty) then
      some ((digitsVal i : ℚ) + (digitsVal f : ℚ) / (10 ^ f.length : ℚ))
    else none
  | _ => none

/-- Model of `pd.to_numeric` on one cell value: parse a (possibly signed)
decimal numeral, failing on anything else. -/
def parseRat (s : String) : Option ℚ :=
  match trimChars s.data with
  | '-' :: rest => (parseUnsigned rest).map (fun q => -q)
  | cs => parseUnsigned cs

/-- A calendar date (the `.dt.date` value; time of day already discarded). -/
structure DateV where
  year : ℕ
  month : ℕ
  day : ℕ
deriving DecidableEq

/-- Model of `pd.to_datetime(...).dt.date` on one cell: parse `YYYY-MM-DD`,
failing on anything else. -/
def parseDate (s : String) : Option DateV :=
  match splitOnChar '-' (trimChars s.data) with
  | [y, m, d] =>
    if allDigits y && !y.isEmpty && allDigits m && !m.isEmpty
        && allDigits d && !d.isEmpty
        && decide (1 ≤ digitsVal m) && decide (digitsVal m ≤ 12)
        && decide (1 ≤ digitsVal d) && decide (digitsVal d ≤ 31) then
      some ⟨digitsVal y, digitsVal m, digitsVal d⟩
    else none
  | _ => none

/-- Round half-to-even to an integer (numpy/pandas rounding). -/
def roundHalfEven (x : ℚ) : ℤ :=
  if x - ⌊x⌋ < 1/2 then ⌊x⌋
  else if (1 : ℚ)/2 < x - ⌊x⌋ then ⌊x⌋ + 1
  else if ⌊x⌋ % 2 = 0 then ⌊x⌋ else ⌊x⌋ + 1

/-- Model of `Series.round(2)`. -/
def round2 (q : ℚ) : ℚ := (roundHalfEven (q * 100) : ℚ) / 100

/-! ### Rows -/

/-- One raw spreadsheet row; `none` is an empty cell (NaN). -/
structure RawRow where
  runner : Option String
  team : Option String
  distance : Option String
  date : Option String
  period : Option String
  archive : Option String
deriving DecidableEq

/-- One row after column coercion; `none` is NaN/NaT. -/
structure Row where
  runner : Option String
  team : Option String
  dist : Option ℚ
  date : Option DateV
  period : Option String
  archive : Option String
deriving DecidableEq

/-! ### Normalization and the archive partition

`current_leaderboard.load_data` and `archive.load_archived_data` coerce the
Distance and Date columns with `errors='coerce'` (failures become NaN),
normalize the Archive column with `astype(str).str.upper().str.strip()`,
filter on membership of that normalized value in the truthy token list,
and finally run `dropna()`.

`app.load_data` coerces without `errors='coerce'` (an unparseable cell
raises), never touches the Archive column and never drops rows. -/

/-- The truthy tokens (`archived_values` in both page loaders). -/
def archived_values : List String := ["TRUE", "T", "1", "YES", "Y"]

/-- `astype(str)` on one cell: a missing value (NaN) stringifies to `"nan"`. -/
def strOfCell (v : Option String) : String := v.getD "nan"

/-- The normalized Archive text stored back into the column:
`astype(str).str.upper().str.strip()`. -/
def archText (v : Option String) : String := upperTrim (strOfCell v)

/-- Archive-flag classification: `True` exactly when the normalized flag text
is one of `archived_values`.  This is the single function deciding the
current/archived partition. -/
def classifyArchived (v : Option String) : Bool := memStr (archText v) archived_values

/-- Column coercion with `errors='coerce'`: Distance parsed and rounded to two
decimals (NaN on failure), Date parsed (NaT on failure), other columns kept. -/
def coerceRow (r : RawRow) : Row :=
  { runner := r.runner
    team := r.team
    dist := (r.distance.bind parseRat).map round2
    date := r.date.bind parseDate
    period := r.period
    archive := r.archive }

/-- `df['Archive'] = df['Archive'].astype(str).str.upper().str.strip()`:
store the normalized flag text back into the Archive column. -/
def normArchive (r : Row) : Row := { r with archive := some (archText r.archive) }

/-- The `isin(archived_values)` test on the (already normalized) Archive
column of a row. -/
def rowIsin (r : Row) : Bool := memStr (r.archive.getD "nan") archived_values

/-- The normalized record set both page loaders build before filtering:
coerced rows with the Archive column normalized. -/
def normalizedRecords (raws : List RawRow) : List Row :=
  (raws.map coerceRow).map normArchive

/-- The CURRENT side of the partition:
`df[~df['Archive'].isin(archived_values)]` (current_leaderboard.py:59). -/
def currentPartition (raws : List RawRow) : List Row :=
  (normalizedRecords raws).filter (fun r => !rowIsin r)

/-- The ARCHIVED side of the partition:
`df[df['Archive'].isin(archived_values)]` (archive.py:30). -/
def archivedPartition (raws : List RawRow) : List Row :=
  (normalizedRecords raws).filter rowIsin

/-- `dropna()`: keep a row only when every column holds a value.  (The
Archive column was re-written with `astype(str)` text, so it is never NaN
at this point; in our model it is always `some _` after `normArchive`.) -/
def isComplete (r : Row) : Bool :=
  r.runner.isSome && r.team.isSome && r.dist.isSome && r.date.isSome
    && r.period.isSome && r.archive.isSome

/-- `load_data` of src/pages/current_leaderboard.py (lines 39-72):
coerce, normalize the flag, keep non-archived rows, `dropna()`. -/
def load_data (raws : List RawRow) : List Row :=
  (currentPartition raws).filter isComplete

/-- `load_archived_data` of src/pages/archive.py (lines 15-35):
coerce, normalize the flag, keep archived rows, `dropna()`. -/
def load_archived_data (raws : List RawRow) : List Row :=
  (archivedPartition raws).filter isComplete

/-! ### The main-page loader (src/app.py, lines 45-51)

`pd.to_numeric(df['Distance'])` and `pd.to_datetime(df['Date'])` are called
without `errors='coerce'` and without any surrounding `try`: an unparseable
cell raises, aborting the whole load.  A missing cell (NaN/NaT) passes
through without raising.  There is no Archive handling and no `dropna`. -/

/-- Distance coercion of the main page: missing stays missing, an
unparseable string raises. -/
def appCoerceDist : Option String → Except Unit (Option ℚ)
  | none => .ok none
  | some s =>
    match parseRat s with
    | some q => .ok (some (round2 q))
    | none => .error ()

/-- Date coercion of the main page: missing stays missing, an unparseable
string raises. -/
def appCoerceDate : Option String → Except Unit (Option DateV)
  | none => .ok none
  | some s =>
    match parseDate s with
    | some d => .ok (some d)
    | none => .error ()

/-- One-row coercion of the main page loader. -/
def appCoerceRow (r : RawRow) : Except Unit Row :=
  match appCoerceDist r.distance with
  | .error e => .error e
  | .ok d =>
    match appCoerceDate r.date with
    | .error e => .error e
    | .ok dt =>
      .ok { runner := r.runner, team := r.team, dist := d, date := dt
            period := r.period, archive := r.archive }

/-- Traverse all rows; the first failing coercion aborts the load. -/
def exceptMap (f : RawRow → Except Unit Row) : List RawRow → Except Unit (List Row)
  | [] => .ok []
  | r :: rs =>
    match f r with
    | .error e => .error e
    | .ok v =>
      match exceptMap f rs with
      | .error e => .error e
      | .ok vs => .ok (v :: vs)

/-- `load_data` of src/app.py (lines 45-51). -/
def app_load_data (raws : List RawRow) : Except Unit (List Row) :=
  exceptMap appCoerceRow raws

/-! ### Aggregation (`groupby(...)['Distance'].sum()`)

pandas `groupby` with the default `sort=True` emits one group per distinct
key, keys in ascending order; rows whose key is NaN are excluded; NaN
distances inside a group are skipped by `sum()`. -/

/-- Insert into an ascending-sorted list (strict order `lt`). -/
def insertAsc {κ : Type} (lt : κ → κ → Bool) (k : κ) : List κ → List κ
  | [] => [k]
  | k' :: l => if lt k k' then k :: k' :: l else k' :: insertAsc lt k l

/-- Sort ascending by `lt` (insertion sort). -/
def sortAsc {κ : Type} (lt : κ → κ → Bool) : List κ → List κ
  | [] => []
  | k :: l => insertAsc lt k (sortAsc lt l)

/-- The distinct grouping keys present in a record set, ascending — the
index of the `groupby` output. -/
def groupKeys {κ : Type} [DecidableEq κ] (lt : κ → κ → Bool) (key : Row → Option κ)
    (records : List Row) : List κ :=
  sortAsc lt (records.filterMap key).dedup

/-- `groupby(key)['Distance'].sum()`: per distinct key (ascending), the sum
of the distances of its rows (NaN distances contribute nothing). -/
def groupDistSum {κ : Type} [DecidableEq κ] (lt : κ → κ → Bool) (key : Row → Option κ)
    (records : List Row) : List (κ × ℚ) :=
  (groupKeys lt key records).map
    (fun k => (k, ((records.filter (fun r => decide (key r = some k))).map
      (fun r => r.dist.getD 0)).sum))

/-! ### Ranking (`sort_values(by='Distance', ascending=False)`)

Modelled as a stable descending insertion sort on the aggregate list (see
the header comment): ties keep the ascending-key order of the `groupby`
output. -/

/-- Stable descending insert by the second (distance) component. -/
def insertDesc {κ : Type} (a : κ × ℚ) : List (κ × ℚ) → List (κ × ℚ)
  | [] => [a]
  | b :: l => if a.2 < b.2 then b :: insertDesc a l else a :: b :: l

/-- Stable sort, distance descending. -/
def sortValuesDesc {κ : Type} : List (κ × ℚ) → List (κ × ℚ)
  | [] => []
  | a :: l => insertDesc a (sortValuesDesc l)

/-- Round the displayed distance of one aggregate entry
(`stats['Distance'].round(2)`). -/
def roundSnd {κ : Type} (a : κ × ℚ) : κ × ℚ := (a.1, round2 a.2)

/-- Aggregate, sort descending, then round the displayed distances (every
page sorts on the unrounded sums and rounds afterwards). -/
def ranking {κ : Type} [DecidableEq κ] (lt : κ → κ → Bool) (key : Row → Option κ)
    (records : List Row) : List (κ × ℚ) :=
  (sortValuesDesc (groupDistSum lt key records)).map roundSnd

/-- Team grouping key. -/
def teamKey (r : Row) : Option String := r.team

/-- Runner grouping key (main-page individual leaderboard). -/
def runnerKey (r : Row) : Option String := r.runner

/-- (Runner, Team) grouping key (current page and archive page individuals);
`groupby` drops a row when any part of the key is NaN. -/
def pairKey (r : Row) : Option (String × String) :=
  match r.runner, r.team with
  | some a, some b => some (a, b)
  | _, _ => none

/-- `team_stats` (app.py:56-62, current_leaderboard.py:147-153, and
archive.py:52-60): the full team ranking, never truncated. -/
def team_stats (records : List Row) : List (String × ℚ) :=
  ranking strLt teamKey records

/-- The sorted (unrounded) individual ranking of the main page. -/
def runnerSorted (records : List Row) : List (String × ℚ) :=
  sortValuesDesc (groupDistSum strLt runnerKey records)

/-- `runner_stats` (app.py:186-193): sort, `head(10)`, then round. -/
def runner_stats (records : List Row) : List (String × ℚ) :=
  ((runnerSorted records).take 10).map roundSnd

/-- `individual_stats` (current_leaderboard.py:296-302, archive.py:113-121):
the full (Runner, Team) ranking, rounded; truncation happens at display. -/
def individual_stats (records : List Row) : List ((String × String) × ℚ) :=
  ranking pairLt pairKey records

/-- The table shown for the individual leaderboard of the current page:
`individual_stats.head(20)` (current_leaderboard.py:313). -/
def individualTable20 (records : List Row) : List ((String × String) × ℚ) :=
  (individual_stats records).take 20

/-! ### Position labels (medals)

`team_stats.loc[i, 'Pos'] = medals[i] if i < 3 else str(i+1)`
(app.py:65-68, current_leaderboard.py:156-160, archive.py:64-67). -/

/-- The three decorative labels. -/
def medals : List String := ["🥇", "🥈", "🥉"]

/-- The position label of the 0-based index `i`. -/
def posLabel (i : ℕ) : String := if i < 3 then medals.getD i "" else toString (i + 1)

/-- Attach position labels starting at index `i`. -/
def labelFrom {α : Type} (i : ℕ) : List α → List (String × α)
  | [] => []
  | a :: l => (posLabel i, a) :: labelFrom (i + 1) l

/-- Attach position labels to a ranked output sequence. -/
def labelRanking {α : Type} (l : List α) : List (String × α) := labelFrom 0 l

/-! ### Rosters -/

/-- The hardcoded `team_member_map` of src/app.py (lines 32-40);
`team_member_map.get(team, [])` yields `[]` for unknown teams. -/
def team_member_map (team : String) : List String :=
  if team = "Team A" then ["Asim", "Ijaz", "Jaskeat"]
  else if team = "Team B" then ["Alfred", "Angelo", "Miho"]
  else if team = "Team C" then ["Arminder", "Siddhant", "Yrral"]
  else if team = "Team D" then ["Gladys", "Jonathan", "Luis"]
  else if team = "Team E" then ["John", "Rishi", "Timothy"]
  else if team = "Team F" then ["Alan", "Anurag", "Matthew"]
  else if team = "Team G" then ["Karebu", "Siddharth", "Sneha"]
  else []

/-- The roster the main page displays under a team in `TeamDisplay`
(app.py:71-80): always the static map, whatever the records say. -/
def appDisplayedRoster (_records : List Row) (team : String) : List String :=
  team_member_map team

/-- One step of the dynamic roster scan of current_leaderboard.py:136-143,
projected onto one team: append the row's runner if the row belongs to the
team and the runner is not yet listed. -/
def rosterStep (team : String) (acc : List String) (r : Row) : List String :=
  if r.team = some team then
    match r.runner with
    | some name => if name ∈ acc then acc else acc ++ [name]
    | none => acc
  else acc

/-- The dynamically derived roster of a team: first-occurrence scan over the
records, duplicates suppressed. -/
def dynRoster (records : List Row) (team : String) : List String :=
  records.foldl (rosterStep team) []

/-- The roster the current page displays under a team
(current_leaderboard.py:164-171): always the dynamic map; a team absent
from the records gets `[]` (`team_member_map.get(team, [])` on the
dynamically built dict). -/
def clDisplayedRoster (records : List Row) (team : String) : List String :=
  dynRoster records team

/-! ## Lemmas about the sorting machinery -/

theorem insertAsc_perm {κ : Type} (lt : κ → κ → Bool) (k : κ) (l : List κ) :
    List.Perm (insertAsc lt k l) (k :: l) := by
  induction l with
  | nil => rfl
  | cons k' l ih =>
    by_cases h : lt k k'
    · simp [insertAsc, h]
    · simp only [insertAsc, h, if_neg, Bool.not_eq_true]
      exact ((ih.cons k').trans (List.Perm.swap k k' l)).symm.symm

theorem sortAsc_perm {κ : Type} (lt : κ → κ → Bool) (l : List κ) :
    List.Perm (sortAsc lt l) l := by
  induction l with
  | nil => rfl
  | cons k l ih => exact ((insertAsc_perm lt k (sortAsc lt l)).trans (ih.cons k))

theorem mem_sortAsc {κ : Type} (lt : κ → κ → Bool) (l : List κ) (x : κ) :
    x ∈ sortAsc lt l ↔ x ∈ l :=
  (sortAsc_perm lt l).mem_iff

theorem pairwise_insertAsc {κ : Type} (lt : κ → κ → Bool)
    (htr : ∀ a b c, lt a b = true → lt b c = true → lt a c = true)
    (htot : ∀ a b, a ≠ b → lt a b = true ∨ lt b a = true)
    (k : κ) (l : List κ) (hk : k ∉ l)
    (hl : List.Pairwise (fun a b => lt a b = true) l) :
    List.Pairwise (fun a b => lt a b = true) (insertAsc lt k l) := by
  induction l with
  | nil => simp [insertAsc]
  | cons k' l ih =>
    rw [List.pairwise_cons] at hl
    by_cases h : lt k k'
    · simp only [insertAsc, h, if_pos]
      refine List.Pairwise.cons ?_ (List.Pairwise.cons hl.1 hl.2)
      intro x hx
      rcases List.mem_cons.mp hx with rfl | hx
      · exact h
      · exact htr _ _ _ h (hl.1 x hx)
    · simp only [insertAsc, h, if_neg, Bool.not_eq_true]
      refine List.Pairwise.cons ?_ (ih (fun hm => hk (List.mem_cons_of_mem _ hm)) hl.2)
      intro x hx
      rcases List.mem_cons.mp ((insertAsc_perm lt k l).mem_iff.mp hx) with rfl | hx
      · rcases htot x k' (fun he => hk (he ▸ List.mem_cons_self x l)) with h1 | h1
        · exact absurd h1 h
        · exact h1
      · exact hl.1 x hx

theorem pairwise_sortAsc {κ : Type} (lt : κ → κ → Bool)
    (htr : ∀ a b c, lt a b = true → lt b c = true → lt a c = true)
    (htot : ∀ a b, a ≠ b → lt a b = true ∨ lt b a = true)
    (l : List κ) (hl : l.Nodup) :
    List.Pairwise (fun a b => lt a b = true) (sortAsc lt l) := by
  induction l with
  | nil => simp [sortAsc]
  | cons k l ih =>
    rw [List.nodup_cons] at hl
    exact pairwise_insertAsc lt htr htot k (sortAsc lt l)
      (fun hm => hl.1 ((mem_sortAsc lt l k).mp hm)) (ih hl.2)

theorem insertDesc_perm {κ : Type} (a : κ × ℚ) (l : List (κ × ℚ)) :
    List.Perm (insertDesc a l) (a :: l) := by
  induction l with
  | nil => rfl
  | cons b l ih =>
    by_cases h : a.2 < b.2
    · simp only [insertDesc, h, if_pos]
      exact ((ih.cons b).trans (List.Perm.swap a b l)).symm.symm
    · simp [insertDesc, h]

theorem sortValuesDesc_perm {κ : Type} (l : List (κ × ℚ)) :
    List.Perm (sortValuesDesc l) l := by
  induction l with
  | nil => rfl
  | cons a l ih => exact (insertDesc_perm a (sortValuesDesc l)).trans (ih.cons a)

theorem insertDesc_sorted {κ : Type} (a : κ × ℚ) (l : List (κ × ℚ))
    (hl : List.Pairwise (fun x y => y.2 ≤ x.2) l) :
    List.Pairwise (fun x y => y.2 ≤ x.2) (insertDesc a l) := by
  induction l with
  | nil => simp [insertDesc]
  | cons b l ih =>
    rw [List.pairwise_cons] at hl
    by_cases h : a.2 < b.2
    · simp only [insertDesc, h, if_pos]
      refine List.Pairwise.cons ?_ (ih hl.2)
      intro x hx
      rcases List.mem_cons.mp ((insertDesc_perm a l).mem_iff.mp hx) with rfl | hx
      · exact le_of_lt h
      · exact hl.1 x hx
    · simp only [insertDesc, h, if_neg, not_false_iff]
      refine List.Pairwise.cons ?_ (List.Pairwise.cons hl.1 hl.2)
      intro x hx
      rcases List.mem_cons.mp hx with rfl | hx
      · exact le_of_not_lt h
      · exact le_trans (hl.1 x hx) (le_of_not_lt h)

/-- Distance-descending with key-ascending tie order: the shape of every
ranked output of the engine. -/
def ordRel {κ : Type} (lt : κ → κ → Bool) (x y : κ × ℚ) : Prop :=
  y.2 < x.2 ∨ (x.2 = y.2 ∧ lt x.1 y.1 = true)

theorem insertDesc_ord {κ : Type} (lt : κ → κ → Bool) (a : κ × ℚ) (l : List (κ × ℚ))
    (hal : ∀ b ∈ l, lt a.1 b.1 = true)
    (hl : List.Pairwise (ordRel lt) l) :
    List.Pairwise (ordRel lt) (insertDesc a l) := by
  induction l with
  | nil => simp [insertDesc]
  | cons b l ih =>
    rw [List.pairwise_cons] at hl
    by_cases h : a.2 < b.2
    · simp only [insertDesc, h, if_pos]
      refine List.Pairwise.cons ?_ (ih (fun c hc => hal c (List.mem_cons_of_mem b hc)) hl.2)
      intro x hx
      rcases List.mem_cons.mp ((insertDesc_perm a l).mem_iff.mp hx) with rfl | hx
      · exact Or.inl h
      · exact hl.1 x hx
    · simp only [insertDesc, h, if_neg, not_false_iff]
      refine List.Pairwise.cons ?_ (List.Pairwise.cons hl.1 hl.2)
      intro x hx
      rcases List.mem_cons.mp hx with rfl | hx
      · rcases lt_or_eq_of_le (le_of_not_lt h) with h1 | h1
        · exact Or.inl h1
        · exact Or.inr ⟨h1.symm, hal x (List.mem_cons_self x l)⟩
      · rcases hl.1 x hx with h1 | h1
        · rcases lt_or_eq_of_le (le_of_not_lt h) with h2 | h2
          · exact Or.inl (lt_of_lt_of_le h1 (le_of_lt h2))
          · exact Or.inl (h2 ▸ h1)
        · rcases lt_or_eq_of_le (le_of_not_lt h) with h2 | h2
          · exact Or.inl (h1.1 ▸ h2)
          · exact Or.inr ⟨h1.1 ▸ h2.symm, hal x (List.mem_cons_of_mem b hx)⟩

theorem sortValuesDesc_ord {κ : Type} (lt : κ → κ → Bool) (l : List (κ × ℚ))
    (hl : List.Pairwise (fun x y => lt x.1 y.1 = true) l) :
    List.Pairwise (ordRel lt) (sortValuesDesc l) := by
  induction l with
  | nil => simp [sortValuesDesc]
  | cons a l ih =>
    rw [List.pairwise_cons] at hl
    exact insertDesc_ord lt a (sortValuesDesc l)
      (fun b hb => hl.1 b ((sortValuesDesc_perm l).mem_iff.mp hb)) (ih hl.2)

theorem sortValuesDesc_sorted {κ : Type} (l : List (κ × ℚ)) :
    List.Pairwise (fun x y => y.2 ≤ x.2) (sortValuesDesc l) := by
  induction l with
  | nil => simp [sortValuesDesc]
  | cons a l ih => exact insertDesc_sorted a (sortValuesDesc l) ih

/-! ## Order properties of the key orders -/

theorem char_eq_of_toNat_eq {a b : Char} (h : a.toNat = b.toNat) : a = b := by
  have h1 : a.val.toNat = b.val.toNat := h
  exact Char.eq_of_val_eq (UInt32.toNat.inj h1)

theorem lexLtChars_trans (a : List Char) :
    ∀ b c, lexLtChars a b = true → lexLtChars b c = true → lexLtChars a c = true := by
  induction a with
  | nil =>
    intro b c hab hbc
    cases b with
    | nil => simp [lexLtChars] at hab
    | cons y ys =>
      cases c with
      | nil => simp [lexLtChars] at hbc
      | cons z zs => simp [lexLtChars]
  | cons x xs ih =>
    intro b c hab hbc
    cases b with
    | nil => simp [lexLtChars] at hab
    | cons y ys =>
      cases c with
      | nil => simp [lexLtChars] at hbc
      | cons z zs =>
        simp only [lexLtChars] at hab hbc ⊢
        by_cases h1 : x.toNat < y.toNat <;> by_cases h2 : y.toNat < z.toNat
        · have h3 : x.toNat < z.toNat := Nat.lt_trans h1 h2
          simp [h3]
        · by_cases h3 : z.toNat < y.toNat
          · simp [h2, h3] at hbc
          · have h4 : x.toNat < z.toNat := by omega
            simp [h4]
        · by_cases h3 : y.toNat < x.toNat
          · simp [h1, h3] at hab
          · have h4 : x.toNat < z.toNat := by omega
            simp [h4]
        · by_cases h3 : y.toNat < x.toNat
          · simp [h1, h3] at hab
          · by_cases h4 : z.toNat < y.toNat
            · simp [h2, h4] at hbc
            · have hxz : ¬ x.toNat < z.toNat := by omega
              have hzx : ¬ z.toNat < x.toNat := by omega
              simp only [if_neg h1, if_neg h3] at hab
              simp only [if_neg h2, if_neg h4] at hbc
              simp only [if_neg hxz, if_neg hzx]
              exact ih ys zs hab hbc

theorem lexLtChars_irrefl (a : List Char) : lexLtChars a a = false := by
  induction a with
  | nil => rfl
  | cons x xs ih => simp [lexLtChars, ih]

theorem lexLtChars_total (a : List Char) :
    ∀ b, a ≠ b → lexLtChars a b = true ∨ lexLtChars b a = true := by
  induction a with
  | nil =>
    intro b hne
    cases b with
    | nil => exact absurd rfl hne
    | cons y ys => left; simp [lexLtChars]
  | cons x xs ih =>
    intro b hne
    cases b with
    | nil => right; simp [lexLtChars]
    | cons y ys =>
      rcases Nat.lt_trichotomy x.toNat y.toNat with h1 | h1 | h1
      · left; simp [lexLtChars, h1]
      · have hxy : x = y := char_eq_of_toNat_eq h1
        subst hxy
        have hne2 : xs ≠ ys := fun he => hne (he ▸ rfl)
        rcases ih ys hne2 with h | h
        · left; simp [lexLtChars, h]
        · right; simp [lexLtChars, h]
      · right; simp [lexLtChars, h1]

theorem strLt_trans (a b c : String) (hab : strLt a b = true) (hbc : strLt b c = true) :
    strLt a c = true :=
  lexLtChars_trans a.data b.data c.data hab hbc

theorem strLt_total (a b : String) (hne : a ≠ b) :
    strLt a b = true ∨ strLt b a = true := by
  refine lexLtChars_total a.data b.data (fun he => hne ?_)
  cases a; cases b
  exact congrArg String.mk he

theorem strLt_irrefl (a : String) : strLt a a = false :=
  lexLtChars_irrefl a.data

theorem pairLt_trans (a b c : String × String)
    (hab : pairLt a b = true) (hbc : pairLt b c = true) : pairLt a c = true := by
  simp only [pairLt, Bool.or_eq_true, Bool.and_eq_true, decide_eq_true_eq] at hab hbc ⊢
  rcases hab with h1 | ⟨h1, h1'⟩ <;> rcases hbc with h2 | ⟨h2, h2'⟩
  · exact Or.inl (strLt_trans _ _ _ h1 h2)
  · exact Or.inl (h2 ▸ h1)
  · exact Or.inl (h1 ▸ h2)
  · exact Or.inr ⟨h1.trans h2, strLt_trans _ _ _ h1' h2'⟩

theorem pairLt_total (a b : String × String) (hne : a ≠ b) :
    pairLt a b = true ∨ pairLt b a = true := by
  simp only [pairLt, Bool.or_eq_true, Bool.and_eq_true, decide_eq_true_eq]
  by_cases h1 : a.1 = b.1
  · have h2 : a.2 ≠ b.2 := by
      intro he; exact hne (Prod.ext h1 he)
    rcases strLt_total a.2 b.2 h2 with h | h
    · exact Or.inl (Or.inr ⟨h1, h⟩)
    · exact Or.inr (Or.inr ⟨h1.symm, h⟩)
  · rcases strLt_total a.1 b.1 h1 with h | h
    · exact Or.inl (Or.inl h)
    · exact Or.inr (Or.inl h)

/-! ## Lemmas about grouping -/

theorem mem_groupKeys {κ : Type} [DecidableEq κ] (lt : κ → κ → Bool) (key : Row → Option κ)
    (records : List Row) (k : κ) :
    k ∈ groupKeys lt key records ↔ ∃ r ∈ records, key r = some k := by
  rw [groupKeys, mem_sortAsc, List.mem_dedup, List.mem_filterMap]

theorem nodup_groupKeys {κ : Type} [DecidableEq κ] (lt : κ → κ → Bool) (key : Row → Option κ)
    (records : List Row) : (groupKeys lt key records).Nodup :=
  ((sortAsc_perm lt (records.filterMap key).dedup).nodup_iff).mpr (List.nodup_dedup _)

theorem pairwise_groupKeys {κ : Type} [DecidableEq κ] (lt : κ → κ → Bool)
    (htr : ∀ a b c, lt a b = true → lt b c = true → lt a c = true)
    (htot : ∀ a b, a ≠ b → lt a b = true ∨ lt b a = true)
    (key : Row → Option κ) (records : List Row) :
    List.Pairwise (fun a b => lt a b = true) (groupKeys lt key records) :=
  pairwise_sortAsc lt htr htot _ (List.nodup_dedup _)

theorem pairwise_keys_groupDistSum {κ : Type} [DecidableEq κ] (lt : κ → κ → Bool)
    (htr : ∀ a b c, lt a b = true → lt b c = true → lt a c = true)
    (htot : ∀ a b, a ≠ b → lt a b = true ∨ lt b a = true)
    (key : Row → Option κ) (records : List Row) :
    List.Pairwise (fun x y => lt x.1 y.1 = true) (groupDistSum lt key records) := by
  rw [groupDistSum, List.pairwise_map]
  exact pairwise_groupKeys lt htr htot key records

/-! ## Sum lemmas (conservation) -/

theorem sum_map_add {κ : Type} (ks : List κ) (f g : κ → ℚ) :
    (ks.map (fun k => f k + g k)).sum = (ks.map f).sum + (ks.map g).sum := by
  induction ks with
  | nil => simp
  | cons k ks ih => simp only [List.map_cons, List.sum_cons, ih]; ring

theorem sum_map_single {κ : Type} [DecidableEq κ] (ks : List κ) (hnd : ks.Nodup)
    (k0 : κ) (q : ℚ) (hmem : k0 ∈ ks) :
    (ks.map (fun k => if k0 = k then q else 0)).sum = q := by
  induction ks with
  | nil => simp at hmem
  | cons k ks ih =>
    rw [List.nodup_cons] at hnd
    rcases List.mem_cons.mp hmem with rfl | hmem
    · have hz : (ks.map (fun k => if k0 = k then q else 0)).sum = 0 := by
        refine List.sum_eq_zero ?_
        intro x hx
        rcases List.mem_map.mp hx with ⟨k1, hk1, hx1⟩
        have hne : k0 ≠ k1 := fun he => hnd.1 (he ▸ hk1)
        rw [if_neg hne] at hx1
        exact hx1.symm
      simp [List.map_cons, List.sum_cons, hz]
    · have hk0 : k0 ≠ k := fun he => hnd.1 (he ▸ hmem)
      simp only [List.map_cons, List.sum_cons, if_neg hk0, zero_add]
      exact ih hnd.2 hmem

/-- The per-key group sums over any duplicate-free key list covering the keys
of the records add up to the total distance of the key-bearing records. -/
theorem sum_over_groups {κ : Type} [DecidableEq κ] (key : Row → Option κ) :
    ∀ (records : List Row) (ks : List κ), ks.Nodup →
    (∀ r ∈ records, ∀ k, key r = some k → k ∈ ks) →
    (ks.map (fun k => ((records.filter (fun r => decide (key r = some k))).map
        (fun r => r.dist.getD 0)).sum)).sum
      = ((records.filter (fun r => (key r).isSome)).map (fun r => r.dist.getD 0)).sum := by
  intro records
  induction records with
  | nil =>
    intro ks _ _
    simp
  | cons r records ih =>
    intro ks hnd hcov
    have hcov2 : ∀ s ∈ records, ∀ k, key s = some k → k ∈ ks :=
      fun s hs => hcov s (List.mem_cons_of_mem r hs)
    cases hk : key r with
    | none =>
      have h1 : ∀ k : κ, (r :: records).filter (fun s => decide (key s = some k))
          = records.filter (fun s => decide (key s = some k)) := by
        intro k
        simp [List.filter_cons, hk]
      have h2 : (r :: records).filter (fun s => (key s).isSome)
          = records.filter (fun s => (key s).isSome) := by
        simp [List.filter_cons, hk]
      calc (ks.map (fun k => (((r :: records).filter (fun s => decide (key s = some k))).map
              (fun s => s.dist.getD 0)).sum)).sum
          = (ks.map (fun k => ((records.filter (fun s => decide (key s = some k))).map
              (fun s => s.dist.getD 0)).sum)).sum := by
            refine congrArg _ (List.map_congr_left ?_)
            intro k _
            rw [h1 k]
        _ = ((records.filter (fun s => (key s).isSome)).map (fun s => s.dist.getD 0)).sum :=
            ih ks hnd hcov2
        _ = (((r :: records).filter (fun s => (key s).isSome)).map
              (fun s => s.dist.getD 0)).sum := by rw [h2]
    | some k0 =>
      have hmem : k0 ∈ ks := hcov r (List.mem_cons_self r records) k0 hk
      have h1 : ∀ k : κ, (((r :: records).filter (fun s => decide (key s = some k))).map
          (fun s => s.dist.getD 0)).sum
          = (if k0 = k then r.dist.getD 0 else 0)
            + ((records.filter (fun s => decide (key s = some k))).map
                (fun s => s.dist.getD 0)).sum := by
        intro k
        by_cases he : k0 = k
        · subst he
          simp [List.filter_cons, hk]
        · have : ¬ (key r = some k) := by
            rw [hk]
            exact fun hc => he (Option.some.inj hc)
          simp [List.filter_cons, hk, this, he]
      calc (ks.map (fun k => (((r :: records).filter (fun s => decide (key s = some k))).map
              (fun s => s.dist.getD 0)).sum)).sum
          = (ks.map (fun k => (if k0 = k then r.dist.getD 0 else 0)
              + ((records.filter (fun s => decide (key s = some k))).map
                  (fun s => s.dist.getD 0)).sum)).sum := by
            exact congrArg _ (List.map_congr_left (fun k _ => h1 k))
        _ = (ks.map (fun k => if k0 = k then r.dist.getD 0 else 0)).sum
              + (ks.map (fun k => ((records.filter (fun s => decide (key s = some k))).map
                  (fun s => s.dist.getD 0)).sum)).sum := sum_map_add ks _ _
        _ = r.dist.getD 0
              + ((records.filter (fun s => (key s).isSome)).map (fun s => s.dist.getD 0)).sum := by
            rw [sum_map_single ks hnd k0 _ hmem, ih ks hnd hcov2]
        _ = (((r :: records).filter (fun s => (key s).isSome)).map
              (fun s => s.dist.getD 0)).sum := by
            simp [List.filter_cons, hk]

/-! ## Multiples of one hundredth -/

/-- `q` is an exact multiple of `1/100` — the form of every distance that
survives loading (everything is rounded to two decimals on load). -/
def isCent (q : ℚ) : Prop := ∃ k : ℤ, q = (k : ℚ) / 100

/-- A possibly-missing distance that is a multiple of `1/100` when present. -/
def isCentOpt : Option ℚ → Prop
  | none => True
  | some q => isCent q

theorem isCent_zero : isCent 0 := ⟨0, by norm_num⟩

theorem isCent_add {a b : ℚ} (ha : isCent a) (hb : isCent b) : isCent (a + b) := by
  rcases ha with ⟨m, rfl⟩
  rcases hb with ⟨n, rfl⟩
  exact ⟨m + n, by push_cast; ring⟩

theorem isCent_sum (l : List ℚ) (h : ∀ q ∈ l, isCent q) : isCent l.sum := by
  induction l with
  | nil => simpa using isCent_zero
  | cons q l ih =>
    rw [List.sum_cons]
    exact isCent_add (h q (List.mem_cons_self q l))
      (ih (fun p hp => h p (List.mem_cons_of_mem q hp)))

theorem isCent_getD {v : Option ℚ} (h : isCentOpt v) : isCent (v.getD 0) := by
  cases v with
  | none => exact isCent_zero
  | some q => exact h

/-- Rounding to two decimals is the identity on multiples of `1/100`. -/
theorem round2_eq_of_isCent {q : ℚ} (h : isCent q) : round2 q = q := by
  rcases h with ⟨k, rfl⟩
  have h1 : (k : ℚ) / 100 * 100 = (k : ℚ) := by field_simp
  have h2 : roundHalfEven ((k : ℚ)) = k := by
    unfold roundHalfEven
    rw [Int.floor_intCast]
    rw [if_pos]
    rw [sub_self]
    norm_num
  rw [round2, h1, h2]

/-- Every distance produced by column coercion is a multiple of `1/100`. -/
theorem coerceRow_isCent (raw : RawRow) : isCentOpt (coerceRow raw).dist := by
  rw [coerceRow]
  cases h : raw.distance.bind parseRat with
  | none => simp [isCentOpt, h]
  | some q =>
    simp only [h, Option.map_some]
    exact ⟨roundHalfEven (q * 100), rfl⟩

/-! ## Linking lemmas for the loaders -/

theorem rowIsin_normArchive (r : Row) :
    rowIsin (normArchive r) = classifyArchived r.archive := rfl

theorem mem_normalizedRecords_of_mem {raws : List RawRow} {raw : RawRow} (h : raw ∈ raws) :
    normArchive (coerceRow raw) ∈ normalizedRecords raws :=
  List.mem_map.mpr ⟨coerceRow raw, List.mem_map.mpr ⟨raw, h, rfl⟩, rfl⟩

theorem isComplete_fields {r : Row} (h : isComplete r = true) :
    r.runner.isSome = true ∧ r.team.isSome = true ∧ r.dist.isSome = true
      ∧ r.date.isSome = true ∧ r.period.isSome = true ∧ r.archive.isSome = true := by
  simp only [isComplete, Bool.and_eq_true] at h
  exact ⟨h.1.1.1.1.1, h.1.1.1.1.2, h.1.1.1.2, h.1.1.2, h.1.2, h.2⟩

/-! ## Example rows used by the concrete witnesses

The distance and date cells are left empty in most of them, so that every
field computation is decidable by kernel reduction. -/

/-- A raw row with no archive flag (a legitimate current row). -/
def exRawCur : RawRow := ⟨some "A", some "T1", none, none, some "P1", none⟩

/-- A raw row flagged `true` (an archived row). -/
def exRawArch : RawRow := ⟨some "B", some "T2", none, none, some "P1", some "true"⟩

/-- A raw row with an empty Period cell. -/
def exRawNoPeriod : RawRow := ⟨some "C", some "T3", none, none, none, none⟩

/-- A raw row with an empty Runner cell. -/
def exRawNoRunner : RawRow := ⟨none, some "T4", none, none, some "P1", none⟩

/-- A small concrete raw record set. -/
def exRaws : List RawRow := [exRawCur, exRawArch, exRawNoPeriod, exRawNoRunner]

/-! ## Claim C2 — the archive partition is a disjoint cover -/

/-- C2: for every normalized record set, the CURRENT and ARCHIVED sets
produced by the partitioning step are disjoint and their union (as sets of
records) is the full normalized record set; a record's side is decided by
the classification of its archive flag alone, never by its date or period:
the side test reads nothing but the (normalized) Archive field. -/
theorem c2_partition_cover (raws : List RawRow) :
    (∀ r : Row, r ∈ normalizedRecords raws ↔
      (r ∈ currentPartition raws ∨ r ∈ archivedPartition raws)) ∧
    (∀ r : Row, ¬ (r ∈ currentPartition raws ∧ r ∈ archivedPartition raws)) ∧
    (∀ r ∈ normalizedRecords raws,
      (r ∈ archivedPartition raws ↔ rowIsin r = true) ∧
      (r ∈ currentPartition raws ↔ rowIsin r = false)) ∧
    (∀ raw ∈ raws, rowIsin (normArchive (coerceRow raw)) = classifyArchived raw.archive) ∧
    (∀ r s : Row, r.archive = s.archive → rowIsin r = rowIsin s) := by
  refine ⟨?_, ?_, ?_, fun raw _ => rfl, ?_⟩
  · intro r
    constructor
    · intro h
      cases hc : rowIsin r with
      | false => exact Or.inl (List.mem_filter.mpr ⟨h, by simp [hc]⟩)
      | true => exact Or.inr (List.mem_filter.mpr ⟨h, hc⟩)
    · intro h
      rcases h with h | h
      · exact (List.mem_filter.mp h).1
      · exact (List.mem_filter.mp h).1
  · intro r ⟨hc, ha⟩
    have h1 := (List.mem_filter.mp hc).2
    have h2 := (List.mem_filter.mp ha).2
    simp only [Bool.not_eq_true'] at h1
    rw [h2] at h1
    exact Bool.true_eq_false.mp h1
  · intro r hr
    constructor
    · constructor
      · intro h
        exact (List.mem_filter.mp h).2
      · intro h
        exact List.mem_filter.mpr ⟨hr, h⟩
    · constructor
      · intro h
        have h1 := (List.mem_filter.mp h).2
        simpa using h1
      · intro h
        exact List.mem_filter.mpr ⟨hr, by simp [h]⟩
  · intro r s h
    simp only [rowIsin, h]

/-- Witness for C2 at a concrete record set: the flagged row sits in the
ARCHIVED side and in no case in both sides. -/
theorem c2_partition_cover_witness :
    (normArchive (coerceRow exRawArch) ∈ archivedPartition exRaws ↔
      rowIsin (normArchive (coerceRow exRawArch)) = true) ∧
    ¬ (normArchive (coerceRow exRawArch) ∈ currentPartition exRaws ∧
      normArchive (coerceRow exRawArch) ∈ archivedPartition exRaws) :=
  ⟨((c2_partition_cover exRaws).2.2.1 _ (by decide)).1,
    (c2_partition_cover exRaws).2.1 _⟩

/-! ## Claim C5 — archive-token classification -/

/-- C5: a record is ARCHIVED exactly when upper-casing and trimming its
textual archive value lands in the token set TRUE/T/1/YES/Y; anything
else — including a missing value — classifies as CURRENT.  The listed
examples evaluate as the claim states. -/
theorem c5_archive_token_classification :
    (∀ (raws : List RawRow), ∀ raw ∈ raws,
      (normArchive (coerceRow raw) ∈ archivedPartition raws ↔
        classifyArchived raw.archive = true)) ∧
    (∀ v : Option String,
      classifyArchived v = memStr (upperTrim (strOfCell v)) archived_values) ∧
    classifyArchived (some "true") = true ∧ classifyArchived (some "TRUE") = true ∧
    classifyArchived (some " T ") = true ∧ classifyArchived (some "1") = true ∧
    classifyArchived (some "yes") = true ∧ classifyArchived (some " Y") = true ∧
    classifyArchived (some "false") = false ∧ classifyArchived (some "0") = false ∧
    classifyArchived (some "") = false ∧ classifyArchived none = false := by
  refine ⟨?_, fun v => rfl, by decide, by decide, by decide, by decide, by decide,
    by decide, by decide, by decide, by decide, by decide⟩
  intro raws raw hmem
  constructor
  · intro h
    have h2 := (List.mem_filter.mp h).2
    rwa [rowIsin_normArchive] at h2
  · intro h
    refine List.mem_filter.mpr ⟨mem_normalizedRecords_of_mem hmem, ?_⟩
    rwa [rowIsin_normArchive]

/-- Witness for C5: the concrete flagged row is in the ARCHIVED partition
because its flag text classifies as truthy. -/
theorem c5_archive_token_classification_witness :
    normArchive (coerceRow exRawArch) ∈ archivedPartition exRaws :=
  (c5_archive_token_classification.1 exRaws exRawArch (by decide)).mpr (by decide)

/-! ## Claim C10 — dropna after the archive filter -/

/-- C10: in the current-leaderboard and archive loaders, after archive-flag
filtering every row with a missing value in any column is dropped: all
surviving rows are complete; a CURRENT row without a Period value never
reaches the current-leaderboard record set, and a row with a missing
Runner or Team reaches neither page's record set. -/
theorem c10_dropna_excludes_incomplete (raws : List RawRow) :
    (∀ r ∈ load_data raws, isComplete r = true) ∧
    (∀ r ∈ load_archived_data raws, isComplete r = true) ∧
    (∀ raw ∈ raws, raw.period = none →
      normArchive (coerceRow raw) ∉ load_data raws) ∧
    (∀ raw ∈ raws, raw.runner = none ∨ raw.team = none →
      normArchive (coerceRow raw) ∉ load_data raws ∧
      normArchive (coerceRow raw) ∉ load_archived_data raws) := by
  have hcomp : ∀ (l : List Row) (r : Row), r ∈ l.filter isComplete → isComplete r = true :=
    fun l r h => (List.mem_filter.mp h).2
  refine ⟨fun r h => hcomp _ r h, fun r h => hcomp _ r h, ?_, ?_⟩
  · intro raw _ hper h
    have h1 := (isComplete_fields (hcomp _ _ h)).2.2.2.2.1
    have h2 : (normArchive (coerceRow raw)).period = raw.period := rfl
    rw [h2, hper] at h1
    simp at h1
  · intro raw _ hmiss
    constructor
    · intro h
      have hf := isComplete_fields (hcomp _ _ h)
      rcases hmiss with hr | ht
      · have h2 : (normArchive (coerceRow raw)).runner = raw.runner := rfl
        have h1 := hf.1
        rw [h2, hr] at h1
        simp at h1
      · have h2 : (normArchive (coerceRow raw)).team = raw.team := rfl
        have h1 := hf.2.1
        rw [h2, ht] at h1
        simp at h1
    · intro h
      have hf := isComplete_fields (hcomp _ _ h)
      rcases hmiss with hr | ht
      · have h2 : (normArchive (coerceRow raw)).runner = raw.runner := rfl
        have h1 := hf.1
        rw [h2, hr] at h1
        simp at h1
      · have h2 : (normArchive (coerceRow raw)).team = raw.team := rfl
        have h1 := hf.2.1
        rw [h2, ht] at h1
        simp at h1

/-- Witness for C10: the concrete row with an empty Period cell is not in
the current-leaderboard record set, and the row with an empty Runner cell
is in neither record set. -/
theorem c10_dropna_excludes_incomplete_witness :
    normArchive (coerceRow exRawNoPeriod) ∉ load_data exRaws ∧
    normArchive (coerceRow exRawNoRunner) ∉ load_data exRaws ∧
    normArchive (coerceRow exRawNoRunner) ∉ load_archived_data exRaws :=
  ⟨(c10_dropna_excludes_incomplete exRaws).2.2.1 exRawNoPeriod (by decide) rfl,
    ((c10_dropna_excludes_incomplete exRaws).2.2.2 exRawNoRunner (by decide) (Or.inl rfl)).1,
    ((c10_dropna_excludes_incomplete exRaws).2.2.2 exRawNoRunner (by decide) (Or.inl rfl)).2⟩

/-! ## Length and indexing lemmas for rankings and labels -/

theorem length_sortValuesDesc {κ : Type} (l : List (κ × ℚ)) :
    (sortValuesDesc l).length = l.length :=
  (sortValuesDesc_perm l).length_eq

theorem length_groupDistSum {κ : Type} [DecidableEq κ] (lt : κ → κ → Bool)
    (key : Row → Option κ) (records : List Row) :
    (groupDistSum lt key records).length = (groupKeys lt key records).length :=
  List.length_map _ _

theorem labelFrom_length {α : Type} (i : ℕ) (l : List α) :
    (labelFrom i l).length = l.length := by
  induction l generalizing i with
  | nil => rfl
  | cons a l ih => simp [labelFrom, ih]

theorem labelFrom_get_fst {α : Type} :
    ∀ (l : List α) (i j : ℕ) (h : j < (labelFrom i l).length),
    ((labelFrom i l).get ⟨j, h⟩).1 = posLabel (i + j) := by
  intro l
  induction l with
  | nil => intro i j h; simp [labelFrom] at h
  | cons a l ih =>
    intro i j h
    cases j with
    | zero => simp [labelFrom]
    | succ j =>
      have h2 : j < (labelFrom (i + 1) l).length := by
        simpa [labelFrom] using h
      have h3 : ((labelFrom i (a :: l)).get ⟨j + 1, h⟩)
          = ((labelFrom (i + 1) l).get ⟨j, h2⟩) := rfl
      rw [h3, ih (i + 1) j h2]
      congr 1
      omega

theorem pairwise_take_drop {α : Type} {R : α → α → Prop} {l : List α}
    (h : List.Pairwise R l) (n : ℕ) :
    ∀ a ∈ l.take n, ∀ b ∈ l.drop n, R a b := by
  have h2 : List.Pairwise R (l.take n ++ l.drop n) := by
    rw [List.take_append_drop]; exact h
  exact (List.pairwise_append.mp h2).2.2

/-! ## A concrete coerced record set for witnesses

Integer distances keep the rational arithmetic easy for the evaluation
tactics; the team of the first row sorts after the team of the second, while
both carry the same distance, which exercises the tie-break. -/

/-- First witness row: runner r1 of TeamB, 5 km. -/
def exRow1 : Row := ⟨some "r1", some "TeamB", some 5, some ⟨2025, 1, 1⟩, some "P1", some "FALSE"⟩

/-- Second witness row: runner r2 of TeamA, 5 km. -/
def exRow2 : Row := ⟨some "r2", some "TeamA", some 5, some ⟨2025, 1, 2⟩, some "P1", some "FALSE"⟩

/-- Third witness row: runner r2 again, 3 km more for TeamA. -/
def exRow3 : Row := ⟨some "r2", some "TeamA", some 3, some ⟨2025, 1, 3⟩, some "P1", some "FALSE"⟩

/-- The concrete coerced record set used by several witnesses. -/
def exRows : List Row := [exRow1, exRow2, exRow3]

/-! ## Claim C8 — position labels -/

/-- C8: in every ranked output sequence (team table, main-page individual
table, current-page individual table), the entry at 0-based index `i`
carries label `posLabel i`; indices 0, 1, 2 (ranks 1, 2, 3) receive the
three fixed medal labels, which are pairwise distinct and distinct from the
numeric rank labels they replace, and every later index receives its
1-based rank rendered as a string. -/
theorem c8_position_labels (records : List Row) :
    (∀ (i : ℕ) (h : i < (labelRanking (team_stats records)).length),
      ((labelRanking (team_stats records)).get ⟨i, h⟩).1 = posLabel i) ∧
    (∀ (i : ℕ) (h : i < (labelRanking (runner_stats records)).length),
      ((labelRanking (runner_stats records)).get ⟨i, h⟩).1 = posLabel i) ∧
    (∀ (i : ℕ) (h : i < (labelRanking (individual_stats records)).length),
      ((labelRanking (individual_stats records)).get ⟨i, h⟩).1 = posLabel i) ∧
    (∀ i : ℕ, i < 3 → posLabel i = medals.getD i "") ∧
    (∀ i : ℕ, 3 ≤ i → posLabel i = toString (i + 1)) ∧
    medals.Nodup ∧
    posLabel 0 ≠ toString 1 ∧ posLabel 1 ≠ toString 2 ∧ posLabel 2 ≠ toString 3 := by
  refine ⟨?_, ?_, ?_, ?_, ?_, by decide, by decide, by decide, by decide⟩
  · intro i h
    simpa using labelFrom_get_fst (team_stats records) 0 i h
  · intro i h
    simpa using labelFrom_get_fst (runner_stats records) 0 i h
  · intro i h
    simpa using labelFrom_get_fst (individual_stats records) 0 i h
  · intro i hi
    simp [posLabel, hi]
  · intro i hi
    simp [posLabel, Nat.not_lt.mpr hi]

theorem labelRanking_team_exRows_length : (labelRanking (team_stats exRows)).length = 2 := by
  rw [labelRanking, labelFrom_length, team_stats, ranking, List.length_map,
    length_sortValuesDesc, length_groupDistSum]
  decide

/-- Witness for C8 at a concrete record set: the top entry of the labeled
team table carries the first medal. -/
theorem c8_position_labels_witness :
    ((labelRanking (team_stats exRows)).get
        ⟨0, by rw [labelRanking_team_exRows_length]; omega⟩).1 = posLabel 0 ∧
    posLabel 0 = "🥇" ∧ posLabel 3 = "4" :=
  ⟨(c8_position_labels exRows).1 0 _, by decide, by decide⟩

/-! ## Claim C7 — truncation strictly after sorting -/

/-- C7: every truncation happens after the descending sort, never before:
the main-page individual table is the first 10 entries of the fully sorted
individual ranking, the current-page combined individual table is the first
20 entries of its fully sorted ranking, team tables are never truncated,
and the entries each truncation keeps dominate (by distance) every entry it
discards. -/
theorem c7_truncation_after_sort (records : List Row) :
    runner_stats records = ((runnerSorted records).map roundSnd).take 10 ∧
    individualTable20 records = (individual_stats records).take 20 ∧
    team_stats records = (sortValuesDesc (groupDistSum strLt teamKey records)).map roundSnd ∧
    (∀ a ∈ (runnerSorted records).take 10, ∀ b ∈ (runnerSorted records).drop 10, b.2 ≤ a.2) ∧
    (∀ a ∈ (sortValuesDesc (groupDistSum pairLt pairKey records)).take 20,
      ∀ b ∈ (sortValuesDesc (groupDistSum pairLt pairKey records)).drop 20, b.2 ≤ a.2) := by
  refine ⟨?_, rfl, rfl, ?_, ?_⟩
  · rw [runner_stats, List.map_take]
  · exact pairwise_take_drop (sortValuesDesc_sorted _) 10
  · exact pairwise_take_drop (sortValuesDesc_sorted _) 20

/-- Witness for C7 at the concrete record set. -/
theorem c7_truncation_after_sort_witness :
    runner_stats exRows = ((runnerSorted exRows).map roundSnd).take 10 ∧
    individualTable20 exRows = (individual_stats exRows).take 20 :=
  ⟨(c7_truncation_after_sort exRows).1, (c7_truncation_after_sort exRows).2.1⟩

/-! ## Cent-value lemmas for rankings -/

theorem groupDistSum_snd_isCent {κ : Type} [DecidableEq κ] (lt : κ → κ → Bool)
    (key : Row → Option κ) (records : List Row)
    (hcent : ∀ r ∈ records, isCentOpt r.dist) :
    ∀ x ∈ groupDistSum lt key records, isCent x.2 := by
  intro x hx
  rcases List.mem_map.mp hx with ⟨k, _, rfl⟩
  refine isCent_sum _ ?_
  intro q hq
  rcases List.mem_map.mp hq with ⟨r, hr, rfl⟩
  exact isCent_getD (hcent r (List.mem_filter.mp hr).1)

/-- On record sets whose distances are all exact multiples of `1/100` (as
every loaded record set is), the final display rounding changes nothing and
the rounded ranking is the sorted aggregate list itself. -/
theorem ranking_eq_sorted_of_cent {κ : Type} [DecidableEq κ] (lt : κ → κ → Bool)
    (key : Row → Option κ) (records : List Row)
    (hcent : ∀ r ∈ records, isCentOpt r.dist) :
    ranking lt key records = sortValuesDesc (groupDistSum lt key records) := by
  rw [ranking]
  have h : ∀ x ∈ sortValuesDesc (groupDistSum lt key records), roundSnd x = id x := by
    intro x hx
    have hx2 : x ∈ groupDistSum lt key records := (sortValuesDesc_perm _).mem_iff.mp hx
    have hc : isCent x.2 := groupDistSum_snd_isCent lt key records hcent x hx2
    show (x.1, round2 x.2) = x
    rw [round2_eq_of_isCent hc]
  rw [List.map_congr_left h, List.map_id]

/-! ## Claim C6 — conservation of summed distance -/

/-- C6: for every non-empty record set whose distances are multiples of
`1/100` (the form of every loaded record set), the sum of the per-team
aggregated distances in the displayed team table equals the sum of the
distances over all records included in the aggregation (`groupby` includes
exactly the rows carrying a team key; on complete record sets that is every
record). -/
theorem c6_conservation (records : List Row) (_hne : records ≠ [])
    (hcent : ∀ r ∈ records, isCentOpt r.dist) :
    ((team_stats records).map Prod.snd).sum
      = ((records.filter (fun r => (teamKey r).isSome)).map (fun r => r.dist.getD 0)).sum := by
  rw [team_stats, ranking_eq_sorted_of_cent strLt teamKey records hcent]
  calc ((sortValuesDesc (groupDistSum strLt teamKey records)).map Prod.snd).sum
      = ((groupDistSum strLt teamKey records).map Prod.snd).sum :=
        ((sortValuesDesc_perm _).map Prod.snd).sum_eq
    _ = ((records.filter (fun r => (teamKey r).isSome)).map (fun r => r.dist.getD 0)).sum := by
        rw [groupDistSum, List.map_map]
        exact sum_over_groups teamKey records (groupKeys strLt teamKey records)
          (nodup_groupKeys strLt teamKey records)
          (fun r hr k hk => (mem_groupKeys strLt teamKey records k).mpr ⟨r, hr, hk⟩)

/-- Witness for C6: on the concrete record set the displayed team distances
add up to `5 + 5 + 3 = 13`, the total over all records. -/
theorem c6_conservation_witness :
    exRows ≠ [] ∧ ((team_stats exRows).map Prod.snd).sum = 13 := by
  have hcent : ∀ r ∈ exRows, isCentOpt r.dist := by
    intro r hr
    rcases List.mem_cons.mp hr with rfl | hr
    · exact ⟨500, by norm_num⟩
    rcases List.mem_cons.mp hr with rfl | hr
    · exact ⟨500, by norm_num⟩
    rcases List.mem_cons.mp hr with rfl | hr
    · exact ⟨300, by norm_num⟩
    · simp at hr
  refine ⟨by decide, ?_⟩
  rw [c6_conservation exRows (by decide) hcent]
  norm_num +decide [exRows, exRow1, exRow2, exRow3, teamKey, List.filter]

/-! ## Claim C9 — the main page never filters on the archive flag -/

theorem sum_split_filter {α : Type} (l : List α) (c : α → Bool) (f : α → ℚ) :
    ((l.filter c).map f).sum + ((l.filter (fun a => !c a)).map f).sum = (l.map f).sum := by
  induction l with
  | nil => simp
  | cons a l ih =>
    cases h : c a
    · simp only [List.filter_cons, h, Bool.not_false, if_neg, Bool.false_eq_true,
        not_false_iff, if_pos, List.map_cons, List.sum_cons]
      rw [← ih]
      ring
    · simp only [List.filter_cons, h, Bool.not_true, if_pos, Bool.false_eq_true, if_neg,
        not_false_iff, List.map_cons, List.sum_cons]
      rw [← ih]
      ring

theorem groupDistSum_map_invariant {κ : Type} [DecidableEq κ] (lt : κ → κ → Bool)
    (key : Row → Option κ) (records : List Row) (g : Row → Row)
    (hkey : ∀ r, key (g r) = key r) (hdist : ∀ r, (g r).dist = r.dist) :
    groupDistSum lt key (records.map g) = groupDistSum lt key records := by
  have hkg : key ∘ g = key := funext hkey
  have hkeys : groupKeys lt key (records.map g) = groupKeys lt key records := by
    rw [groupKeys, groupKeys, List.filterMap_map, hkg]
  rw [groupDistSum, groupDistSum, hkeys]
  refine List.map_congr_left ?_
  intro k _
  refine congrArg _ ?_
  have hp : ((fun r => decide (key r = some k)) ∘ g) = (fun r => decide (key r = some k)) := by
    funext r
    show decide (key (g r) = some k) = decide (key r = some k)
    rw [hkey]
  rw [List.filter_map, hp, List.map_map]
  refine congrArg List.sum ?_
  refine List.map_congr_left ?_
  intro r _
  show (g r).dist.getD 0 = r.dist.getD 0
  rw [hdist]

/-- C9: the main leaderboard page applies no archive-flag filtering
anywhere: its team ranking, its sorted individual ranking and its combined
individual ranking are invariant under arbitrary rewrites of every record's
archive flag, and each per-team total decomposes into the contribution of
the truthy-flagged (ARCHIVED-classified) records plus the contribution of
the remaining (CURRENT-classified) records — both sides contribute in full. -/
theorem c9_no_archive_filter (records : List Row) (f : Row → Option String) :
    team_stats (records.map (fun r => { r with archive := f r })) = team_stats records ∧
    runnerSorted (records.map (fun r => { r with archive := f r })) = runnerSorted records ∧
    individual_stats (records.map (fun r => { r with archive := f r }))
      = individual_stats records ∧
    (∀ t : String,
      ((records.filter (fun r => decide (teamKey r = some t))).map
        (fun r => r.dist.getD 0)).sum
      = (((records.filter (fun r => classifyArchived r.archive)).filter
            (fun r => decide (teamKey r = some t))).map (fun r => r.dist.getD 0)).sum
        + (((records.filter (fun r => !classifyArchived r.archive)).filter
            (fun r => decide (teamKey r = some t))).map (fun r => r.dist.getD 0)).sum) := by
  have hg1 : groupDistSum strLt teamKey (records.map (fun r => { r with archive := f r }))
      = groupDistSum strLt teamKey records :=
    groupDistSum_map_invariant strLt teamKey records _ (fun r => rfl) (fun r => rfl)
  have hg2 : groupDistSum strLt runnerKey (records.map (fun r => { r with archive := f r }))
      = groupDistSum strLt runnerKey records :=
    groupDistSum_map_invariant strLt runnerKey records _ (fun r => rfl) (fun r => rfl)
  have hg3 : groupDistSum pairLt pairKey (records.map (fun r => { r with archive := f r }))
      = groupDistSum pairLt pairKey records :=
    groupDistSum_map_invariant pairLt pairKey records _ (fun r => rfl) (fun r => rfl)
  refine ⟨?_, ?_, ?_, ?_⟩
  · rw [team_stats, team_stats, ranking, ranking, hg1]
  · rw [runnerSorted, runnerSorted, hg2]
  · rw [individual_stats, individual_stats, ranking, ranking, hg3]
  · intro t
    have h := (sum_split_filter (records.filter (fun r => decide (teamKey r = some t)))
      (fun r => classifyArchived r.archive) (fun r => r.dist.getD 0)).symm
    rw [List.filter_comm] at h
    nth_rewrite 2 [List.filter_comm] at h
    exact h

/-! ## Claim C3 — silent exclusion of rows failing coercion

The claim holds for the current-leaderboard and archive loaders (coercion
with `errors='coerce'` plus `dropna` silently drops the row) but fails for
the main-page loader cited alongside them: `app.load_data` calls
`pd.to_numeric` / `pd.to_datetime` without `errors='coerce'` and without any
`try`, so one unparseable cell raises and the whole load fails. -/

/-- A raw row whose Distance cell does not parse as a number. -/
def exRawBadDist : RawRow := ⟨some "E", some "T5", some "abc", some "x", some "P1", none⟩

/-- A raw row every cell of which coerces. -/
def exRawGood : RawRow :=
  ⟨some "G", some "T6", some "7", some "2025-02-03", some "P1", none⟩

/-- A concrete raw record set containing a row that fails numeric coercion. -/
def exC3raws : List RawRow := [exRawCur, exRawBadDist]

/-- A concrete raw record set of one fully parseable row. -/
def exSurvRaws : List RawRow := [exRawGood]

theorem appCoerceRow_error_of_bad (raw : RawRow)
    (h : (∃ s, raw.distance = some s ∧ parseRat s = none) ∨
      (∃ s, raw.date = some s ∧ parseDate s = none)) :
    appCoerceRow raw = Except.error () := by
  rcases h with ⟨s, hs, hp⟩ | ⟨s, hs, hp⟩
  · have hd : appCoerceDist raw.distance = Except.error () := by
      rw [hs]
      simp [appCoerceDist, hp]
    rw [appCoerceRow, hd]
  · have hd : appCoerceDate raw.date = Except.error () := by
      rw [hs]
      simp [appCoerceDate, hp]
    rw [appCoerceRow]
    cases hdist : appCoerceDist raw.distance with
    | error e => cases e; rfl
    | ok v => rw [hd]

theorem exceptMap_error (f : RawRow → Except Unit Row) :
    ∀ (l : List RawRow) (r : RawRow), r ∈ l → f r = Except.error () →
    exceptMap f l = Except.error () := by
  intro l
  induction l with
  | nil => intro r h; simp at h
  | cons a l ih =>
    intro r h hf
    rcases List.mem_cons.mp h with rfl | h
    · rw [exceptMap, hf]
    · cases ha : f a with
      | error e => cases e; rw [exceptMap, ha]
      | ok v => rw [exceptMap, ha, ih r h hf]

/-- Counterexample to C3 as stated: on the main-page loader (src/app.py,
one of the claim's cited code sites) a record set containing one row with
an unparseable Distance does not get that row silently excluded — the load
raises (models as an error value) and produces no record set at all. -/
theorem c3_counterexample :
    exRawBadDist ∈ exC3raws ∧
    parseRat "abc" = none ∧
    app_load_data exC3raws = Except.error () ∧
    ¬ ∃ out : List Row, app_load_data exC3raws = Except.ok out := by
  refine ⟨by decide, by decide, rfl, ?_⟩
  intro ⟨out, hout⟩
  have h : (Except.error () : Except Unit (List Row)) = Except.ok out :=
    (show app_load_data exC3raws = Except.error () from rfl).symm.trans hout
  exact Except.noConfusion h

/-- C3 amended: in the current-leaderboard and archive loaders a row whose
Distance or Date fails coercion is silently excluded (the loaders are total
and simply do not emit the row), and a fully coerced, complete, matching
row survives; in the main-page loader a failing coercion instead raises, so
no row survives the load. -/
theorem c3_amended_silent_drop (raws : List RawRow) (raw : RawRow) (hmem : raw ∈ raws) :
    ((∃ s, raw.distance = some s ∧ parseRat s = none) ∨
      (∃ s, raw.date = some s ∧ parseDate s = none) →
      normArchive (coerceRow raw) ∉ load_data raws ∧
      normArchive (coerceRow raw) ∉ load_archived_data raws) ∧
    (isComplete (normArchive (coerceRow raw)) = true →
      rowIsin (normArchive (coerceRow raw)) = false →
      normArchive (coerceRow raw) ∈ load_data raws) ∧
    ((∃ s, raw.distance = some s ∧ parseRat s = none) ∨
      (∃ s, raw.date = some s ∧ parseDate s = none) →
      app_load_data raws = Except.error ()) := by
  refine ⟨?_, ?_, ?_⟩
  · intro hbad
    have hinc : isComplete (normArchive (coerceRow raw)) = false := by
      rcases hbad with ⟨s, hs, hp⟩ | ⟨s, hs, hp⟩
      · have hd : (normArchive (coerceRow raw)).dist = none := by
          show (raw.distance.bind parseRat).map round2 = none
          rw [hs]
          simp [hp]
        simp [isComplete, hd]
      · have hd : (normArchive (coerceRow raw)).date = none := by
          show raw.date.bind parseDate = none
          rw [hs]
          simp [hp]
        simp [isComplete, hd]
    constructor
    · intro hin
      have := (List.mem_filter.mp hin).2
      rw [hinc] at this
      exact Bool.false_ne_true this
    · intro hin
      have := (List.mem_filter.mp hin).2
      rw [hinc] at this
      exact Bool.false_ne_true this
  · intro hcomp hcur
    refine List.mem_filter.mpr ⟨?_, hcomp⟩
    refine List.mem_filter.mpr ⟨mem_normalizedRecords_of_mem hmem, ?_⟩
    rw [hcur]
    rfl
  · intro hbad
    exact exceptMap_error appCoerceRow raws raw hmem (appCoerceRow_error_of_bad raw hbad)

/-- Witness for the amended C3: the bad row is in neither loaded record
set, the good row survives the current-leaderboard load, and the main-page
load fails outright on the set containing the bad row. -/
theorem c3_amended_silent_drop_witness :
    (normArchive (coerceRow exRawBadDist) ∉ load_data exC3raws ∧
      normArchive (coerceRow exRawBadDist) ∉ load_archived_data exC3raws) ∧
    normArchive (coerceRow exRawGood) ∈ load_data exSurvRaws ∧
    app_load_data exC3raws = Except.error () :=
  ⟨(c3_amended_silent_drop exC3raws exRawBadDist (by decide)).1
      (Or.inl ⟨"abc", rfl, by decide⟩),
    (c3_amended_silent_drop exSurvRaws exRawGood (by decide)).2.1 (by decide) (by decide),
    (c3_amended_silent_drop exC3raws exRawBadDist (by decide)).2.2
      (Or.inl ⟨"abc", rfl, by decide⟩)⟩

/-! ## Claim C4 — roster resolution

The spec's layered lookup (dynamic first, static fallback) exists nowhere:
the main page always shows the hardcoded static roster and the current page
always shows the dynamically derived one. -/

/-- A record of a runner outside the static roster of Team A. -/
def exZoeRow : Row := ⟨some "Zoe", some "Team A", none, none, some "P1", some "FALSE"⟩

/-- A concrete record set with dynamic data for Team A. -/
def exC4records : List Row := [exZoeRow]

theorem mem_rosterStep (team : String) (acc : List String) (r : Row) (name : String) :
    name ∈ rosterStep team acc r ↔
      name ∈ acc ∨ (r.team = some team ∧ r.runner = some name) := by
  rw [rosterStep]
  by_cases ht : r.team = some team
  · rw [if_pos ht]
    cases hr : r.runner with
    | none => simp [ht, hr]
    | some n =>
      by_cases hn : n ∈ acc
      · simp only [hn, if_pos, ht, hr, true_and, Option.some.injEq]
        constructor
        · exact Or.inl
        · intro h
          rcases h with h | h
          · exact h
          · exact h ▸ hn
      · simp only [hn, if_neg, not_false_iff, List.mem_append, List.mem_singleton, ht,
          hr, true_and, Option.some.injEq]
        constructor
        · intro h
          rcases h with h | h
          · exact Or.inl h
          · exact Or.inr h.symm
        · intro h
          rcases h with h | h
          · exact Or.inl h
          · exact Or.inr h.symm
  · rw [if_neg ht]
    simp [ht]

theorem mem_dynRoster_foldl (team : String) :
    ∀ (records : List Row) (acc : List String) (name : String),
    name ∈ records.foldl (rosterStep team) acc ↔
      name ∈ acc ∨ ∃ r ∈ records, r.team = some team ∧ r.runner = some name := by
  intro records
  induction records with
  | nil =>
    intro acc name
    simp
  | cons r records ih =>
    intro acc name
    rw [List.foldl_cons, ih, mem_rosterStep]
    constructor
    · rintro ((h | h) | ⟨s, hs, h1, h2⟩)
      · exact Or.inl h
      · exact Or.inr ⟨r, List.mem_cons_self r records, h.1, h.2⟩
      · exact Or.inr ⟨s, List.mem_cons_of_mem r hs, h1, h2⟩
    · rintro (h | ⟨s, hs, h1, h2⟩)
      · exact Or.inl (Or.inl h)
      · rcases List.mem_cons.mp hs with rfl | hs
        · exact Or.inl (Or.inr ⟨h1, h2⟩)
        · exact Or.inr ⟨s, hs, h1, h2⟩

theorem nodup_rosterStep (team : String) (acc : List String) (r : Row)
    (h : acc.Nodup) : (rosterStep team acc r).Nodup := by
  rw [rosterStep]
  by_cases ht : r.team = some team
  · rw [if_pos ht]
    cases r.runner with
    | none => exact h
    | some n =>
      show (if n ∈ acc then acc else acc ++ [n]).Nodup
      by_cases hn : n ∈ acc
      · rw [if_pos hn]
        exact h
      · rw [if_neg hn]
        rw [List.nodup_append]
        refine ⟨h, List.nodup_singleton n, ?_⟩
        intro x hx hy
        have hxn : x = n := by simpa using hy
        rw [hxn] at hx
        exact hn hx
  · rw [if_neg ht]
    exact h

theorem nodup_dynRoster_foldl (team : String) :
    ∀ (records : List Row) (acc : List String), acc.Nodup →
    (records.foldl (rosterStep team) acc).Nodup := by
  intro records
  induction records with
  | nil => intro acc h; exact h
  | cons r records ih =>
    intro acc h
    rw [List.foldl_cons]
    exact ih _ (nodup_rosterStep team acc r h)

theorem foldl_rosterStep_of_no_match (team : String) :
    ∀ (records : List Row) (acc : List String),
    (∀ r ∈ records, r.team ≠ some team) →
    records.foldl (rosterStep team) acc = acc := by
  intro records
  induction records with
  | nil => intro acc _; rfl
  | cons r records ih =>
    intro acc h
    rw [List.foldl_cons, rosterStep, if_neg (h r (List.mem_cons_self r records))]
    exact ih acc (fun s hs => h s (List.mem_cons_of_mem r hs))

/-- Counterexample to C4 as stated: Team A has a dynamically observed
record (runner Zoe), yet the roster the main page displays for Team A is
the statically configured one, not the dynamically derived list. -/
theorem c4_counterexample :
    (∃ r ∈ exC4records, r.team = some "Team A") ∧
    dynRoster exC4records "Team A" = ["Zoe"] ∧
    appDisplayedRoster exC4records "Team A" = ["Asim", "Ijaz", "Jaskeat"] ∧
    appDisplayedRoster exC4records "Team A" ≠ dynRoster exC4records "Team A" :=
  ⟨⟨exZoeRow, List.mem_cons_self exZoeRow [], rfl⟩, by decide, by decide, by decide⟩

/-- C4 amended: the two pages never layer the rosters.  The main page
displays the statically configured roster for every team, whatever the
records contain; the current page displays exactly the dynamically derived
roster — the duplicate-free list of runners observed for the team — and an
empty roster (not the static one) for a team with no records. -/
theorem c4_amended_rosters (records : List Row) (team : String) :
    appDisplayedRoster records team = team_member_map team ∧
    (∀ records2 : List Row,
      appDisplayedRoster records team = appDisplayedRoster records2 team) ∧
    clDisplayedRoster records team = dynRoster records team ∧
    (∀ name : String, name ∈ clDisplayedRoster records team ↔
      ∃ r ∈ records, r.team = some team ∧ r.runner = some name) ∧
    (clDisplayedRoster records team).Nodup ∧
    ((∀ r ∈ records, r.team ≠ some team) → clDisplayedRoster records team = []) := by
  refine ⟨rfl, fun records2 => rfl, rfl, ?_, ?_, ?_⟩
  · intro name
    rw [clDisplayedRoster, dynRoster, mem_dynRoster_foldl]
    simp
  · exact nodup_dynRoster_foldl team records [] (List.nodup_nil)
  · intro h
    exact foldl_rosterStep_of_no_match team records [] h

/-- Witness for the amended C4 at concrete inputs: the current page shows
the dynamic roster containing Zoe, and a team with no records gets the
empty roster rather than its static one. -/
theorem c4_amended_rosters_witness :
    ("Zoe" ∈ clDisplayedRoster exC4records "Team A" ↔
      ∃ r ∈ exC4records, r.team = some "Team A" ∧ r.runner = some "Zoe") ∧
    clDisplayedRoster exC4records "Team B" = [] ∧
    appDisplayedRoster exC4records "Team B" = ["Alfred", "Angelo", "Miho"] :=
  ⟨(c4_amended_rosters exC4records "Team A").2.2.2.1 "Zoe",
    (c4_amended_rosters exC4records "Team B").2.2.2.2.2 (by decide),
    (c4_amended_rosters exC4records "Team B").1⟩

/-! ## Claim C1 — sort order and tie-break

Rankings are sorted by distance descending, but the tie order is not the
input-scan first-encounter order the claim states: `groupby` emits its
group keys in ascending key order and the subsequent stable sort keeps that
order among equal distances, so ties are ordered by ascending grouping key. -/

/-- The concrete tie record set: TeamB is encountered first in the input
scan, TeamA second, and both aggregate to the same distance. -/
def exC1rows : List Row := [exRow1, exRow2]

/-- Claim C1's property for the team ranking of a record set: sorted by
distance descending, and among equal distances the key first encountered in
the input scan ranks higher. -/
def c1TieBreakByFirstScan (records : List Row) : Prop :=
  List.Pairwise (fun x y => y.2 ≤ x.2) (team_stats records) ∧
  List.Pairwise (fun x y => x.2 = y.2 →
    records.findIdx (fun r => decide (teamKey r = some x.1))
      < records.findIdx (fun r => decide (teamKey r = some y.1))) (team_stats records)

theorem team_stats_exC1 : team_stats exC1rows = [("TeamA", 5), ("TeamB", 5)] := by
  have h5 : round2 5 = 5 := round2_eq_of_isCent ⟨500, by norm_num⟩
  norm_num +decide [team_stats, ranking, groupDistSum, groupKeys, sortAsc, insertAsc,
    sortValuesDesc, insertDesc, roundSnd, List.dedup, teamKey, exC1rows, exRow1, exRow2,
    List.filter, h5]

/-- Counterexample to C1 as stated: in `exC1rows` the two teams tie at 5 km
and TeamB's first record precedes TeamA's in the input scan, yet the team
ranking places TeamA (the alphabetically smaller key) first. -/
theorem c1_counterexample : ¬ c1TieBreakByFirstScan exC1rows := by
  intro ⟨_, htie⟩
  rw [team_stats_exC1] at htie
  have h := (List.pairwise_cons.mp htie).1 ("TeamB", 5)
    (List.mem_cons_self ("TeamB", 5) []) rfl
  rw [show exC1rows.findIdx (fun r => decide (teamKey r = some "TeamA")) = 1 from by decide,
    show exC1rows.findIdx (fun r => decide (teamKey r = some "TeamB")) = 0 from by decide] at h
  omega

/-- C1 amended: every ranked leaderboard output (team and individual) is
sorted by aggregated distance descending; among equal aggregated distances,
keys appear in ascending grouping-key order (alphabetical for teams,
lexicographic for (runner, team) pairs) — the order `groupby` emits and the
stable sort preserves — not in input-scan first-encounter order.  Stated
for record sets whose distances are multiples of `1/100`, the form of every
loaded record set. -/
theorem c1_amended_tiebreak (records : List Row)
    (hcent : ∀ r ∈ records, isCentOpt r.dist) :
    List.Pairwise (ordRel strLt) (team_stats records) ∧
    List.Pairwise (ordRel pairLt) (individual_stats records) ∧
    List.Pairwise (fun x y => y.2 ≤ x.2) (team_stats records) ∧
    List.Pairwise (fun x y => y.2 ≤ x.2) (individual_stats records) := by
  have ht : team_stats records = sortValuesDesc (groupDistSum strLt teamKey records) :=
    ranking_eq_sorted_of_cent strLt teamKey records hcent
  have hi : individual_stats records = sortValuesDesc (groupDistSum pairLt pairKey records) :=
    ranking_eq_sorted_of_cent pairLt pairKey records hcent
  refine ⟨?_, ?_, ?_, ?_⟩
  · rw [ht]
    exact sortValuesDesc_ord strLt _
      (pairwise_keys_groupDistSum strLt strLt_trans strLt_total teamKey records)
  · rw [hi]
    exact sortValuesDesc_ord pairLt _
      (pairwise_keys_groupDistSum pairLt pairLt_trans pairLt_total pairKey records)
  · rw [ht]
    exact sortValuesDesc_sorted _
  · rw [hi]
    exact sortValuesDesc_sorted _

/-- Witness for the amended C1: at the concrete tie the team ranking is
distance-descending with the tied keys in ascending key order. -/
theorem c1_amended_tiebreak_witness :
    (∀ r ∈ exC1rows, isCentOpt r.dist) ∧
    List.Pairwise (ordRel strLt) (team_stats exC1rows) ∧
    team_stats exC1rows = [("TeamA", 5), ("TeamB", 5)] := by
  have hcent : ∀ r ∈ exC1rows, isCentOpt r.dist := by
    intro r hr
    rcases List.mem_cons.mp hr with rfl | hr
    · exact ⟨500, by norm_num⟩
    rcases List.mem_cons.mp hr with rfl | hr
    · exact ⟨500, by norm_num⟩
    · simp at hr
  exact ⟨hcent, (c1_amended_tiebreak exC1rows hcent).1, team_stats_exC1⟩

end StravaRun
